import Mathlib

/-!
Verification of the user-drift path-reconstruction and transition-graph
pipeline of the reddit-network-analysis repository: a shallow embedding of
`scripts/compute_user_drift_paths.py` and `scripts/build_transition_graph.py`,
followed by theorems settling the specification's claims about them.
Timestamps are epoch seconds modelled as `Int`; pandas frames are modelled as
lists of records in frame order; the stable lexsort used by
`DataFrame.sort_values` on several columns is modelled by `List.insertionSort`
with a non-strict total preorder (which is stable in the same way).
-/

namespace RedditDrift

/-- One comment event, as appended to `records` in compute_user_drift_paths.py:
`(obj["author"], obj["subreddit"], int(obj["created_utc"]))`. -/
structure Event where
  author : String
  subreddit : String
  created_utc : Int
deriving DecidableEq, Repr

/-- A JSON value in a position where the script reads a timestamp:
an integer, a string, or anything else (null, list, object, float is folded
into jint via truncation as Python int() would produce). -/
inductive JVal where
  | jint (n : Int)
  | jstr (s : String)
  | jother
deriving DecidableEq, Repr

/-- A decoded JSON object line, restricted to the three fields the script
reads; `none` marks an absent field. -/
structure JObj where
  author : Option String
  subreddit : Option String
  created_utc : Option JVal
deriving DecidableEq, Repr

/-- One line of a JSONL input file: blank, undecodable JSON, or an object. -/
inductive JLine where
  | blank
  | malformed
  | obj (o : JObj)
deriving DecidableEq, Repr

instance {ε α : Type} [DecidableEq ε] [DecidableEq α] : DecidableEq (Except ε α)
  | .error a, .error b =>
    if h : a = b then .isTrue (by rw [h]) else .isFalse (fun hc => h (Except.error.inj hc))
  | .error _, .ok _ => .isFalse (fun hc => Except.noConfusion hc)
  | .ok _, .error _ => .isFalse (fun hc => Except.noConfusion hc)
  | .ok a, .ok b =>
    if h : a = b then .isTrue (by rw [h]) else .isFalse (fun hc => h (Except.ok.inj hc))

/-- Decimal digit accumulator for `pyParseInt`. -/
def parseDigitsAux : List Char → Nat → Option Nat
  | [], acc => some acc
  | c :: cs, acc =>
    if 48 ≤ c.toNat ∧ c.toNat ≤ 57 then parseDigitsAux cs (acc * 10 + (c.toNat - 48))
    else none

/-- The Python builtin `int` applied to a string: an optional sign followed by
at least one decimal digit parses; anything else raises ValueError. -/
def pyParseInt : List Char → Option Int
  | [] => none
  | c :: cs =>
    if c = '-' then
      if cs = [] then none else (parseDigitsAux cs 0).map (fun n => -(n : Int))
    else if c = '+' then
      if cs = [] then none else (parseDigitsAux cs 0).map (fun n => (n : Int))
    else (parseDigitsAux (c :: cs) 0).map (fun n => (n : Int))

/-- Python `int(x)` on a JSON value: integers pass through, numeric strings
are parsed, anything else raises (ValueError / TypeError). -/
def pythonInt : JVal → Except String Int
  | .jint n => .ok n
  | .jstr s =>
    match pyParseInt s.data with
    | some n => .ok n
    | none => .error "ValueError: invalid literal for int()"
  | .jother => .error "TypeError: int() argument"

/-- The JSONL reading loop of compute_user_drift_paths.py (lines 57-70):
blank lines are skipped, undecodable lines are skipped
(`except json.JSONDecodeError: continue`), objects missing one of
author / subreddit / created_utc are skipped; but `int(obj["created_utc"])`
is not guarded, so an unparseable timestamp propagates as an error. -/
def readRecords : List JLine → Except String (List Event)
  | [] => .ok []
  | .blank :: rest => readRecords rest
  | .malformed :: rest => readRecords rest
  | .obj o :: rest =>
    match o.author, o.subreddit, o.created_utc with
    | some a, some s, some v =>
      match pythonInt v with
      | .ok n =>
        match readRecords rest with
        | .ok evs => .ok (Event.mk a s n :: evs)
        | .error e => .error e
      | .error e => .error e
    | _, _, _ => readRecords rest

/-- `df[df["subreddit"].isin(SEED_SUBS)]`. -/
def seedFilter (seeds : List String) (df : List Event) : List Event :=
  df.filter (fun e => decide (e.subreddit ∈ seeds))

/-- Lexicographic comparison of character lists by code point: the order in
which pandas compares the Python strings of a sorted column. -/
def lexLtB : List Char → List Char → Bool
  | _, [] => false
  | [], _ :: _ => true
  | c :: cs, d :: ds =>
    if c.toNat < d.toNat then true
    else if d.toNat < c.toNat then false
    else lexLtB cs ds

/-- Strict lexicographic order on strings by code point. -/
def strLt (a b : String) : Prop :=
  lexLtB a.data b.data = true

instance : DecidableRel strLt := fun a b =>
  inferInstanceAs (Decidable (lexLtB a.data b.data = true))

theorem lexLtB_irrefl : ∀ l : List Char, lexLtB l l = false := by
  intro l
  induction l with
  | nil => rfl
  | cons c cs ih => simp [lexLtB, ih]

theorem lexLtB_trans : ∀ a b c : List Char,
    lexLtB a b = true → lexLtB b c = true → lexLtB a c = true := by
  intro a
  induction a with
  | nil =>
    intro b c h1 h2
    cases b with
    | nil => exact absurd h1 (by simp [lexLtB])
    | cons d ds =>
      cases c with
      | nil => exact absurd h2 (by simp [lexLtB])
      | cons e es => rfl
  | cons x xs ih =>
    intro b c h1 h2
    cases b with
    | nil => exact absurd h1 (by simp [lexLtB])
    | cons d ds =>
      cases c with
      | nil => exact absurd h2 (by simp [lexLtB])
      | cons e es =>
        simp only [lexLtB] at h1 h2 ⊢
        rcases Nat.lt_trichotomy x.toNat d.toNat with hxd | hxd | hxd
        · rcases Nat.lt_trichotomy d.toNat e.toNat with hde | hde | hde
          · rw [if_pos (by omega)]
          · rw [if_pos (by omega)]
          · rw [if_neg (by omega), if_pos (by omega)] at h2
            exact absurd h2 (by simp)
        · rcases Nat.lt_trichotomy d.toNat e.toNat with hde | hde | hde
          · rw [if_pos (by omega)]
          · rw [if_neg (by omega), if_neg (by omega)] at h1
            rw [if_neg (by omega), if_neg (by omega)] at h2
            rw [if_neg (by omega), if_neg (by omega)]
            exact ih ds es h1 h2
          · rw [if_neg (by omega), if_pos (by omega)] at h2
            exact absurd h2 (by simp)
        · rw [if_neg (by omega), if_pos (by omega)] at h1
          exact absurd h1 (by simp)

theorem lexLtB_eq_of_not_lt : ∀ a b : List Char,
    lexLtB a b = false → lexLtB b a = false → a = b := by
  intro a
  induction a with
  | nil =>
    intro b h1 _
    cases b with
    | nil => rfl
    | cons d ds => exact absurd h1 (by simp [lexLtB])
  | cons x xs ih =>
    intro b h1 h2
    cases b with
    | nil => exact absurd h2 (by simp [lexLtB])
    | cons d ds =>
      simp only [lexLtB] at h1 h2
      rcases Nat.lt_trichotomy x.toNat d.toNat with hxd | hxd | hxd
      · rw [if_pos hxd] at h1
        exact absurd h1 (by simp)
      · rw [if_neg (by omega), if_neg (by omega)] at h1
        rw [if_neg (by omega), if_neg (by omega)] at h2
        have hx : x = d := Char.ext (UInt32.toNat.inj hxd)
        rw [hx, ih ds h1 h2]
      · rw [if_pos hxd] at h2
        exact absurd h2 (by simp)

theorem strLt_irrefl (a : String) : ¬ strLt a a := by
  unfold strLt
  rw [lexLtB_irrefl]
  simp

theorem strLt_trans {a b c : String} : strLt a b → strLt b c → strLt a c :=
  fun h1 h2 => lexLtB_trans _ _ _ h1 h2

theorem strLt_total (a b : String) : strLt a b ∨ a = b ∨ strLt b a := by
  unfold strLt
  cases h1 : lexLtB a.data b.data
  · cases h2 : lexLtB b.data a.data
    · exact Or.inr (Or.inl (String.ext (lexLtB_eq_of_not_lt _ _ h1 h2)))
    · exact Or.inr (Or.inr rfl)
  · exact Or.inl rfl

/-- Non-strict version of `strLt`. -/
def strLe (a b : String) : Prop :=
  strLt a b ∨ a = b

instance : DecidableRel strLe := fun a b =>
  inferInstanceAs (Decidable (strLt a b ∨ a = b))

/-- The non-strict lexicographic order on (author, created_utc) used by
`sort_values(["author", "created_utc"])`. -/
def eventLe (e f : Event) : Prop :=
  strLt e.author f.author ∨ (e.author = f.author ∧ e.created_utc ≤ f.created_utc)

instance : DecidableRel eventLe := fun e f =>
  inferInstanceAs (Decidable (strLt e.author f.author ∨
    (e.author = f.author ∧ e.created_utc ≤ f.created_utc)))

instance : IsTotal Event eventLe where
  total e f := by
    unfold eventLe
    rcases strLt_total e.author f.author with h | h | h
    · exact Or.inl (Or.inl h)
    · rcases le_total e.created_utc f.created_utc with h2 | h2
      · exact Or.inl (Or.inr ⟨h, h2⟩)
      · exact Or.inr (Or.inr ⟨h.symm, h2⟩)
    · exact Or.inr (Or.inl h)

instance : IsTrans Event eventLe where
  trans e f g := by
    unfold eventLe
    rintro (h1 | ⟨h1, h2⟩) (h3 | ⟨h3, h4⟩)
    · exact Or.inl (strLt_trans h1 h3)
    · exact Or.inl (h3 ▸ h1)
    · exact Or.inl (h1 ▸ h3)
    · exact Or.inr ⟨h1.trans h3, h2.trans h4⟩

/-- `drop_duplicates(key, keep="first")` generalized over the key: keep each
record whose key has not been seen before, scanning in frame order. -/
def dedupFirstBy {α κ : Type} [DecidableEq κ] (key : α → κ) (seen : List κ) :
    List α → List α
  | [] => []
  | x :: rest =>
    if key x ∈ seen then dedupFirstBy key seen rest
    else x :: dedupFirstBy key (key x :: seen) rest

/-- Lines 79-83: the seed events, stably sorted by (author, created_utc),
with only the first row per author kept; its created_utc column is the
author's `first_seed_ts` and its subreddit column the `seed_sub`. -/
def seed_df (seeds : List String) (df : List Event) : List Event :=
  dedupFirstBy Event.author [] (List.insertionSort eventLe (seedFilter seeds df))

/-- Row lookup by author, modelling `merge(..., on="author")` against the
one-row-per-author frame `seed_df`. -/
def findAuthor (l : List Event) (a : String) : Option Event :=
  l.find? (fun e => decide (e.author = a))

/-- Lines 89-90: inner merge of `df` with `seed_df[["author","first_seed_ts"]]`
on author, keeping events with `created_utc < first_seed_ts`. -/
def pre_df (seeds : List String) (df : List Event) : List Event :=
  df.filter (fun e =>
    match findAuthor (seed_df seeds df) e.author with
    | some s => decide (e.created_utc < s.created_utc)
    | none => false)

/-- The non-strict lexicographic order on (author, subreddit) pairs used by
the sorted `groupby(["author", "subreddit"])`. -/
def keyLe (k l : String × String) : Prop :=
  strLt k.1 l.1 ∨ (k.1 = l.1 ∧ strLe k.2 l.2)

instance : DecidableRel keyLe := fun k l =>
  inferInstanceAs (Decidable (strLt k.1 l.1 ∨ (k.1 = l.1 ∧ strLe k.2 l.2)))

/-- One row of the `agg` frame before the rel_days merge: line 92-95 of
compute_user_drift_paths.py. -/
structure AggRow where
  author : String
  subreddit : String
  first_ts_here : Int
  comment_count : Nat
deriving DecidableEq, Repr

/-- Lines 92-95: `pre_df.groupby(["author","subreddit"]).agg(first_ts_here=min,
comment_count=size)`: the distinct (author, subreddit) keys in sorted order,
each with the minimum timestamp and the size of its group.  A key coming from
`pre` always has a non-empty group; the `filterMap` returns `none` only on the
unreachable empty-group branch. -/
def agg (pre : List Event) : List AggRow :=
  (List.insertionSort keyLe
      (dedupFirstBy id [] (pre.map (fun e => (e.author, e.subreddit))))).filterMap
    (fun k =>
      match pre.filter (fun e => decide (e.author = k.1) && decide (e.subreddit = k.2)) with
      | [] => none
      | e :: rest =>
        some ⟨k.1, k.2, rest.foldl (fun m f => min m f.created_utc) e.created_utc,
              (e :: rest).length⟩)

/-- Lines 97-101: `if args.min_comments > 1: agg = agg[agg["comment_count"] >=
args.min_comments]` — applied to the pre-T0 groups only. -/
def aggFiltered (minComments : Int) (rows : List AggRow) : List AggRow :=
  if minComments > 1 then
    rows.filter (fun r => decide ((r.comment_count : Int) ≥ minComments))
  else rows

/-- `(first_seed_ts - first_ts_here).dt.days`: pandas Timedelta.days floors
the difference in seconds toward negative infinity over whole days. -/
def relDays (t0 ts : Int) : Int :=
  Int.fdiv (t0 - ts) 86400

/-- One row of the final `out` frame (columns of user_paths.csv). -/
structure Row where
  author : String
  subreddit : String
  first_ts_here : Int
  comment_count : Nat
  rel_days : Int
deriving DecidableEq, Repr

/-- Lines 104-106: merge `agg` with `seed_df[["author","first_seed_ts"]]` on
author and compute rel_days.  Every agg author comes from `pre_df`, hence has a
seed row; the `none` branch is unreachable. -/
def aggWithRel (seeds : List String) (minComments : Int) (df : List Event) : List Row :=
  (aggFiltered minComments (agg (pre_df seeds df))).filterMap (fun r =>
    match findAuthor (seed_df seeds df) r.author with
    | some s =>
      some ⟨r.author, r.subreddit, r.first_ts_here, r.comment_count,
            relDays s.created_utc r.first_ts_here⟩
    | none => none)

/-- Lines 109-115: the T0 rows, one per seed_df row, with comment_count 1 and
rel_days 0; first_seed_ts becomes first_ts_here and seed_sub the subreddit. -/
def t0_rows (seeds : List String) (df : List Event) : List Row :=
  (seed_df seeds df).map (fun s => ⟨s.author, s.subreddit, s.created_utc, 1, 0⟩)

/-- Line 118: `out = pd.concat([agg, t0_rows], ignore_index=True)`. -/
def computePaths (seeds : List String) (minComments : Int) (df : List Event) : List Row :=
  aggWithRel seeds minComments df ++ t0_rows seeds df

/-- The whole run of compute_user_drift_paths.py: the seed-list check of lines
46-47 fires before any event line is read; the reading loop may abort (see
`readRecords`); the empty-seed_df check of lines 85-86 raises SystemExit. -/
def runComputePaths (seeds : List String) (minComments : Int) (lines : List JLine) :
    Except String (List Row) :=
  if seeds.isEmpty then .error "Seed-Subreddit-Liste ist leer!"
  else
    match readRecords lines with
    | .error e => .error e
    | .ok df =>
      if (seed_df seeds df).isEmpty then .error "Kein Seed-Poster gefunden."
      else .ok (computePaths seeds minComments df)

/-- The non-strict order used by line 56 of build_transition_graph.py:
`df.sort_values(["author","rel_days"], ascending=[True, False])` —
author ascending, rel_days descending, as a total preorder whose stable
insertion sort models the stable lexsort pandas performs. -/
def rowLe (r s : Row) : Prop :=
  strLt r.author s.author ∨ (r.author = s.author ∧ s.rel_days ≤ r.rel_days)

instance : DecidableRel rowLe := fun r s =>
  inferInstanceAs (Decidable (strLt r.author s.author ∨
    (r.author = s.author ∧ s.rel_days ≤ r.rel_days)))

instance : IsTotal Row rowLe where
  total r s := by
    unfold rowLe
    rcases strLt_total r.author s.author with h | h | h
    · exact Or.inl (Or.inl h)
    · rcases le_total s.rel_days r.rel_days with h2 | h2
      · exact Or.inl (Or.inr ⟨h, h2⟩)
      · exact Or.inr (Or.inr ⟨h.symm, h2⟩)
    · exact Or.inr (Or.inl h)

instance : IsTrans Row rowLe where
  trans r s t := by
    unfold rowLe
    rintro (h1 | ⟨h1, h2⟩) (h3 | ⟨h3, h4⟩)
    · exact Or.inl (strLt_trans h1 h3)
    · exact Or.inl (h3 ▸ h1)
    · exact Or.inl (h1 ▸ h3)
    · exact Or.inr ⟨h1.trans h3, h4.trans h2⟩

/-- Line 56: `df_user_sorted = df.sort_values(["author","rel_days"],
ascending=[True, False])` (stable). -/
def df_user_sorted (t : List Row) : List Row :=
  List.insertionSort rowLe t

/-- Line 51: the required columns of the input CSV. -/
def reqCols : List String :=
  ["author", "subreddit", "rel_days", "comment_count"]

/-- The authors in order of first appearance, as `groupby("author",
sort=False)` enumerates the groups. -/
def authorsInOrder (t : List Row) : List String :=
  dedupFirstBy id [] (t.map Row.author)

/-- Lines 64-66: the per-author groups of `df_user_sorted`, each reduced to
`grp["subreddit"].tolist()` — the subreddits of that author's rows in frame
order. -/
def groupbyAuthor (t : List Row) : List (String × List String) :=
  (authorsInOrder t).map
    (fun a => (a, (t.filter (fun r => decide (r.author = a))).map Row.subreddit))

/-- The four accumulators of lines 59-62: `edge_users`, `edge_trans`,
`node_users`, `first_entries`, as total maps with the defaultdict/Counter
defaults. -/
@[ext]
structure AggState where
  edge_users : String × String → Finset String
  edge_trans : String × String → Nat
  node_users : String → Finset String
  first_entries : String → Nat

/-- The empty accumulators created at lines 59-62. -/
def initState : AggState :=
  ⟨fun _ => ∅, fun _ => 0, fun _ => ∅, fun _ => 0⟩

/-- `zip(subs, subs[1:])` — the consecutive pairs of a path. -/
def pairsOf : List String → List (String × String)
  | [] => []
  | [_] => []
  | x :: y :: rest => (x, y) :: pairsOf (y :: rest)

/-- Lines 68-69: `for s in subs: node_users[s].add(author)`. -/
def regNodeUsers (a : String) (subs : List String) (nu : String → Finset String) :
    String → Finset String :=
  subs.foldl (fun m s => fun c => if c = s then insert a (m c) else m c) nu

/-- Line 75 iterated: `edge_users[(src, dst)].add(author)`. -/
def regEdgeUsers (a : String) (ps : List (String × String))
    (eu : String × String → Finset String) : String × String → Finset String :=
  ps.foldl (fun m p => fun e => if e = p then insert a (m e) else m e) eu

/-- Line 76 iterated: `edge_trans[(src, dst)] += 1`. -/
def regEdgeTrans (ps : List (String × String)) (et : String × String → Nat) :
    String × String → Nat :=
  ps.foldl (fun m p => fun e => if e = p then m e + 1 else m e) et

/-- Lines 71-72: `if subs: first_entries[subs[0]] += 1`. -/
def bumpFirstEntry (subs : List String) (fe : String → Nat) : String → Nat :=
  match subs with
  | [] => fe
  | h :: _ => fun c => if c = h then fe c + 1 else fe c

/-- The body of the author loop (lines 64-76) applied to one group. -/
def processAuthor (st : AggState) (g : String × List String) : AggState :=
  { edge_users := regEdgeUsers g.1 (pairsOf g.2) st.edge_users
    edge_trans := regEdgeTrans (pairsOf g.2) st.edge_trans
    node_users := regNodeUsers g.1 g.2 st.node_users
    first_entries := bumpFirstEntry g.2 st.first_entries }

/-- The full author loop over a list of groups. -/
def buildState (groups : List (String × List String)) : AggState :=
  groups.foldl processAuthor initState

/-- The aggregation build_transition_graph.py performs on a loaded path table:
sort, group by author, and fold the author loop. -/
def buildAgg (t : List Row) : AggState :=
  buildState (groupbyAuthor (df_user_sorted t))

/-- A loaded CSV: its column names and its parsed rows. -/
structure Csv where
  columns : List String
  rows : List Row

/-- Lines 50-53 then the aggregation: the required-columns check raises
SystemExit with a descriptive message naming the missing columns. -/
def buildTransitionGraph (input : Csv) : Except String AggState :=
  if reqCols.all (fun c => decide (c ∈ input.columns)) then .ok (buildAgg input.rows)
  else
    .error ("CSV fehlt Spalten: " ++
      String.intercalate ", " (reqCols.filter (fun c => decide (c ∉ input.columns))))

/-! ### Lemmas about `dedupFirstBy` -/

theorem mem_of_mem_dedupFirstBy {α κ : Type} [DecidableEq κ] (key : α → κ) :
    ∀ (l : List α) (seen : List κ) (x : α),
      x ∈ dedupFirstBy key seen l → x ∈ l ∧ key x ∉ seen := by
  intro l
  induction l with
  | nil => intro seen x h; simp [dedupFirstBy] at h
  | cons y rest ih =>
    intro seen x h
    by_cases hy : key y ∈ seen
    · simp only [dedupFirstBy, if_pos hy] at h
      obtain ⟨h1, h2⟩ := ih seen x h
      exact ⟨List.mem_cons_of_mem _ h1, h2⟩
    · simp only [dedupFirstBy, if_neg hy] at h
      rcases List.mem_cons.mp h with rfl | h
      · exact ⟨List.mem_cons_self _ _, hy⟩
      · obtain ⟨h1, h2⟩ := ih _ x h
        exact ⟨List.mem_cons_of_mem _ h1, fun hc => h2 (List.mem_cons_of_mem _ hc)⟩

theorem find?_dedupFirstBy_key {α κ : Type} [DecidableEq κ] (key : α → κ) (k : κ) :
    ∀ (l : List α) (seen : List κ), k ∉ seen →
      (dedupFirstBy key seen l).find? (fun x => decide (key x = k)) =
        l.find? (fun x => decide (key x = k)) := by
  intro l
  induction l with
  | nil => intro seen _; rfl
  | cons y rest ih =>
    intro seen hk
    by_cases hy : key y ∈ seen
    · have hne : key y ≠ k := fun hc => hk (hc ▸ hy)
      simp only [dedupFirstBy, if_pos hy]
      rw [List.find?_cons_of_neg _ (by simp [hne]), ih seen hk]
    · simp only [dedupFirstBy, if_neg hy]
      by_cases hyk : key y = k
      · rw [List.find?_cons_of_pos _ (by simp [hyk]),
          List.find?_cons_of_pos _ (by simp [hyk])]
      · rw [List.find?_cons_of_neg _ (by simp [hyk]),
          List.find?_cons_of_neg _ (by simp [hyk])]
        exact ih (key y :: seen) (by
          intro hc
          rcases List.mem_cons.mp hc with hc | hc
          · exact hyk hc.symm
          · exact hk hc)

/-! ### C1: T0 minimality -/

theorem find?_min_of_sorted (a : String) :
    ∀ (l : List Event), List.Sorted eventLe l →
      ∀ s, l.find? (fun e => decide (e.author = a)) = some s →
        ∀ f ∈ l, f.author = a → s.created_utc ≤ f.created_utc := by
  intro l
  induction l with
  | nil => intro _ s hs; simp at hs
  | cons x rest ih =>
    intro hsort s hs f hf hfa
    rcases List.sorted_cons.mp hsort with ⟨hx, hrest⟩
    by_cases hxa : x.author = a
    · rw [List.find?_cons_of_pos _ (by simp [hxa])] at hs
      injection hs with hs
      subst hs
      rcases List.mem_cons.mp hf with rfl | hf
      · exact le_refl _
      · have hle := hx f hf
        unfold eventLe at hle
        rcases hle with h | ⟨_, h⟩
        · rw [hxa.trans hfa.symm] at h
          exact absurd h (strLt_irrefl _)
        · exact h
    · rw [List.find?_cons_of_neg _ (by simp [hxa])] at hs
      rcases List.mem_cons.mp hf with rfl | hf
      · exact absurd hfa hxa
      · exact ih hrest s hs f hf hfa

/-- C1: for every author with at least one event in a seed community, the
first_seed_ts recorded by `seed_df` (the row `merge` finds for that author)
equals the minimum created_utc over that author's seed-community events. -/
theorem C1_t0_minimality (seeds : List String) (df : List Event) (a : String)
    (h : ∃ e ∈ df, e.author = a ∧ e.subreddit ∈ seeds) :
    ∃ s, findAuthor (seed_df seeds df) a = some s ∧ s.author = a ∧ s.subreddit ∈ seeds ∧
      (∃ e ∈ df, e.author = a ∧ e.subreddit ∈ seeds ∧ e.created_utc = s.created_utc) ∧
      ∀ e ∈ df, e.author = a → e.subreddit ∈ seeds → s.created_utc ≤ e.created_utc := by
  obtain ⟨e0, he0, he0a, he0s⟩ := h
  have hperm : List.Perm (List.insertionSort eventLe (seedFilter seeds df))
      (seedFilter seeds df) :=
    List.perm_insertionSort _ _
  have hmemF : ∀ f : Event, f ∈ seedFilter seeds df ↔ f ∈ df ∧ f.subreddit ∈ seeds := by
    intro f; simp [seedFilter, List.mem_filter]
  have he0L : e0 ∈ List.insertionSort eventLe (seedFilter seeds df) :=
    hperm.mem_iff.mpr ((hmemF e0).mpr ⟨he0, he0s⟩)
  have hfind :
      ((List.insertionSort eventLe (seedFilter seeds df)).find?
        (fun e => decide (e.author = a))).isSome := by
    rw [List.find?_isSome]
    exact ⟨e0, he0L, by simp [he0a]⟩
  obtain ⟨s, hs⟩ := Option.isSome_iff_exists.mp hfind
  have hfa : findAuthor (seed_df seeds df) a = some s := by
    unfold findAuthor seed_df
    rw [find?_dedupFirstBy_key Event.author a _ [] (by simp)]
    exact hs
  have hsa : s.author = a := by
    have := List.find?_some hs
    simpa using this
  have hsL : s ∈ List.insertionSort eventLe (seedFilter seeds df) :=
    List.mem_of_find?_eq_some hs
  have hsF := (hmemF s).mp (hperm.mem_iff.mp hsL)
  refine ⟨s, hfa, hsa, hsF.2, ⟨s, hsF.1, hsa, hsF.2, rfl⟩, ?_⟩
  intro f hf hfa2 hfs
  have hfL : f ∈ List.insertionSort eventLe (seedFilter seeds df) :=
    hperm.mem_iff.mpr ((hmemF f).mpr ⟨hf, hfs⟩)
  exact find?_min_of_sorted a _ (List.sorted_insertionSort _ _) s hs f hfL hfa2

/-- A three-event input for the C1 witness: author u posts in X at 5 and in
seed community S at 10 and at 7, so T0 must be 7. -/
def wdf1 : List Event := [⟨"u", "X", 5⟩, ⟨"u", "S", 10⟩, ⟨"u", "S", 7⟩]

/-- Witness for C1 at a concrete input. -/
theorem C1_t0_minimality_witness :
    (∃ e ∈ wdf1, e.author = "u" ∧ e.subreddit ∈ ["S"]) ∧
    (∃ s, findAuthor (seed_df ["S"] wdf1) "u" = some s ∧ s.author = "u" ∧
      s.subreddit ∈ ["S"] ∧
      (∃ e ∈ wdf1, e.author = "u" ∧ e.subreddit ∈ ["S"] ∧ e.created_utc = s.created_utc) ∧
      ∀ e ∈ wdf1, e.author = "u" → e.subreddit ∈ ["S"] → s.created_utc ≤ e.created_utc) :=
  ⟨by decide, C1_t0_minimality ["S"] wdf1 "u" (by decide)⟩

/-! ### C3: the T0 step is exempt from the min-comments filter -/

/-- C3: for every author with a T0 and every min-comments threshold (also
thresholds above 1), the output table contains that author's T0 row with
comment_count 1 and rel_days 0: the filter only touches the pre-T0 groups and
`t0_rows` is concatenated afterwards. -/
theorem C3_t0_exemption (seeds : List String) (minComments : Int) (df : List Event)
    (a : String) (s : Event) (h : findAuthor (seed_df seeds df) a = some s) :
    ∃ r ∈ computePaths seeds minComments df,
      r.author = a ∧ r.subreddit = s.subreddit ∧ r.first_ts_here = s.created_utc ∧
      r.comment_count = 1 ∧ r.rel_days = 0 := by
  have hsa : s.author = a := by simpa using List.find?_some h
  have hsmem : s ∈ seed_df seeds df := List.mem_of_find?_eq_some h
  refine ⟨⟨s.author, s.subreddit, s.created_utc, 1, 0⟩, ?_, hsa, rfl, rfl, rfl, rfl⟩
  unfold computePaths
  refine List.mem_append_right _ ?_
  unfold t0_rows
  exact List.mem_map_of_mem _ hsmem

/-- Witness for C3 at a concrete input with threshold 3 and a pre-T0 visit
that the filter removes. -/
theorem C3_t0_exemption_witness :
    findAuthor (seed_df ["S"] wdf1) "u" = some ⟨"u", "S", 7⟩ ∧
    ∃ r ∈ computePaths ["S"] 3 wdf1,
      r.author = "u" ∧ r.subreddit = "S" ∧ r.first_ts_here = 7 ∧
      r.comment_count = 1 ∧ r.rel_days = 0 :=
  ⟨by decide, C3_t0_exemption ["S"] 3 wdf1 "u" ⟨"u", "S", 7⟩ (by decide)⟩

/-! ### C4: rel_days of the output rows -/

theorem foldl_min_mem : ∀ (l : List Event) (i : Int),
    l.foldl (fun m f => min m f.created_utc) i = i ∨
    ∃ f ∈ l, l.foldl (fun m f => min m f.created_utc) i = f.created_utc := by
  intro l
  induction l with
  | nil => intro i; exact Or.inl rfl
  | cons x rest ih =>
    intro i
    rcases ih (min i x.created_utc) with h | ⟨f, hf, h⟩
    · rcases min_choice i x.created_utc with hm | hm
      · exact Or.inl (by simp only [List.foldl_cons]; rw [h, hm])
      · exact Or.inr ⟨x, List.mem_cons_self _ _, by simp only [List.foldl_cons]; rw [h, hm]⟩
    · exact Or.inr ⟨f, List.mem_cons_of_mem _ hf, by simp only [List.foldl_cons]; rw [h]⟩

/-- Every row of `agg pre` takes its first_ts_here from some event of `pre`
with the row's author. -/
theorem agg_first_ts_mem (pre : List Event) :
    ∀ r ∈ agg pre, ∃ e ∈ pre, e.author = r.author ∧ e.created_utc = r.first_ts_here := by
  intro r hr
  unfold agg at hr
  rcases List.mem_filterMap.mp hr with ⟨k, _, hk⟩
  rcases hfil : pre.filter (fun e => decide (e.author = k.1) && decide (e.subreddit = k.2))
    with _ | ⟨e, rest⟩ <;> rw [hfil] at hk
  · exact absurd hk (by simp)
  · injection hk with hk
    subst hk
    have hmem : ∀ x ∈ e :: rest, x ∈ pre ∧ x.author = k.1 := by
      intro x hx
      have : x ∈ pre.filter (fun e => decide (e.author = k.1) && decide (e.subreddit = k.2)) := by
        rw [hfil]; exact hx
      rcases List.mem_filter.mp this with ⟨h1, h2⟩
      simp only [Bool.and_eq_true, decide_eq_true_eq] at h2
      exact ⟨h1, h2.1⟩
    rcases foldl_min_mem rest e.created_utc with h | ⟨f, hf, h⟩
    · obtain ⟨h1, h2⟩ := hmem e (List.mem_cons_self _ _)
      exact ⟨e, h1, h2, h.symm ▸ rfl⟩
    · obtain ⟨h1, h2⟩ := hmem f (List.mem_cons_of_mem _ hf)
      exact ⟨f, h1, h2, h ▸ rfl⟩

/-- Membership description of `pre_df`: exactly the events of authors with a
T0, strictly before that author's first_seed_ts. -/
theorem mem_pre_df (seeds : List String) (df : List Event) (e : Event) :
    e ∈ pre_df seeds df ↔
      e ∈ df ∧ ∃ s, findAuthor (seed_df seeds df) e.author = some s ∧
        e.created_utc < s.created_utc := by
  unfold pre_df
  rw [List.mem_filter]
  constructor
  · rintro ⟨h1, h2⟩
    refine ⟨h1, ?_⟩
    rcases hf : findAuthor (seed_df seeds df) e.author with _ | s <;> rw [hf] at h2
    · exact absurd h2 (by simp)
    · exact ⟨s, rfl, by simpa using h2⟩
  · rintro ⟨h1, s, hs, hlt⟩
    exact ⟨h1, by rw [hs]; simpa using hlt⟩

/-- All rows written by compute_user_drift_paths.py carry a non-negative
rel_days: pre-T0 rows because their first visit precedes first_seed_ts, T0
rows by construction. -/
theorem computePaths_rel_days_nonneg (seeds : List String) (minComments : Int)
    (df : List Event) : ∀ r ∈ computePaths seeds minComments df, 0 ≤ r.rel_days := by
  intro r hr
  unfold computePaths at hr
  rcases List.mem_append.mp hr with hr | hr
  · unfold aggWithRel at hr
    rcases List.mem_filterMap.mp hr with ⟨r0, hr0, hk⟩
    have hr0a : r0 ∈ agg (pre_df seeds df) := by
      unfold aggFiltered at hr0
      by_cases hmc : minComments > 1
      · rw [if_pos hmc] at hr0; exact List.mem_of_mem_filter hr0
      · rw [if_neg hmc] at hr0; exact hr0
    rcases hf : findAuthor (seed_df seeds df) r0.author with _ | s <;> rw [hf] at hk
    · exact absurd hk (by simp)
    · injection hk with hk
      subst hk
      obtain ⟨e, he, hea, hets⟩ := agg_first_ts_mem (pre_df seeds df) r0 hr0a
      obtain ⟨_, s2, hs2, hlt⟩ := (mem_pre_df seeds df e).mp he
      rw [hea, hf] at hs2
      injection hs2 with hs2
      subst hs2
      show 0 ≤ relDays s.created_utc r0.first_ts_here
      unfold relDays
      have : 0 ≤ s.created_utc - r0.first_ts_here := by
        rw [← hets]; omega
      exact Int.fdiv_nonneg this (by norm_num)
  · unfold t0_rows at hr
    rcases List.mem_map.mp hr with ⟨s, _, hs⟩
    rw [← hs]

theorem nodup_map_key_dedupFirstBy {α κ : Type} [DecidableEq κ] (key : α → κ) :
    ∀ (l : List α) (seen : List κ), ((dedupFirstBy key seen l).map key).Nodup := by
  intro l
  induction l with
  | nil => intro seen; simp [dedupFirstBy]
  | cons y rest ih =>
    intro seen
    by_cases hy : key y ∈ seen
    · simp only [dedupFirstBy, if_pos hy]
      exact ih seen
    · simp only [dedupFirstBy, if_neg hy, List.map_cons]
      refine List.nodup_cons.mpr ⟨?_, ih _⟩
      intro hc
      rcases List.mem_map.mp hc with ⟨x, hx, hkx⟩
      have hnot := (mem_of_mem_dedupFirstBy key rest (key y :: seen) x hx).2
      exact hnot (by rw [hkx]; exact List.mem_cons_self _ _)

theorem filter_key_eq_singleton {α κ : Type} [DecidableEq κ] (key : α → κ) :
    ∀ (l : List α), (l.map key).Nodup → ∀ s ∈ l,
      l.filter (fun x => decide (key x = key s)) = [s] := by
  intro l
  induction l with
  | nil => intro _ s hs; simp at hs
  | cons x rest ih =>
    intro hnd s hs
    rw [List.map_cons] at hnd
    rcases List.nodup_cons.mp hnd with ⟨hx, hrest⟩
    rcases List.mem_cons.mp hs with rfl | hs
    · rw [List.filter_cons_of_pos (by simp)]
      have hnil : rest.filter (fun y => decide (key y = key s)) = [] := by
        apply List.filter_eq_nil_iff.mpr
        intro y hy
        simp only [decide_eq_true_eq]
        intro hc
        exact hx (List.mem_map.mpr ⟨y, hy, hc⟩)
      rw [hnil]
    · have hxs : key x ≠ key s := by
        intro hc
        exact hx (List.mem_map.mpr ⟨s, hs, hc.symm⟩)
      rw [List.filter_cons_of_neg (by simp [hxs]), ih hrest s hs]

/-- Input for the C4 counterexample and the C4 witness: author u visits X
1000 seconds (less than one day) before the first seed event in S, so the X
row and the T0 row both get rel_days = 0. -/
def cdf4 : List Event := [⟨"u", "X", 199000⟩, ⟨"u", "S", 200000⟩]

/-- Counterexample to C4 as stated: author u has a T0 (at 200000 in S), yet
the output contains two rows for u with rel_days = 0 — the T0 row and the
pre-T0 visit to X that happened within a day of T0 — so the path does not
contain exactly one step with rel_days = 0. -/
theorem C4_counterexample :
    findAuthor (seed_df ["S"] cdf4) "u" = some ⟨"u", "S", 200000⟩ ∧
    ((computePaths ["S"] 1 cdf4).filter
      (fun r => decide (r.author = "u") && decide (r.rel_days = 0))).length = 2 := by
  decide

/-- C4 amended: for every author with a T0, the output contains at least one
row for that author with rel_days = 0, every output row has rel_days ≥ 0, and
exactly one T0 row is emitted for that author; but a pre-T0 visit less than a
day before T0 also receives rel_days = 0, so the author's path may hold more
than one step with rel_days = 0. -/
theorem C4_amended (seeds : List String) (minComments : Int) (df : List Event)
    (a : String) (s : Event) (h : findAuthor (seed_df seeds df) a = some s) :
    (∃ r ∈ computePaths seeds minComments df, r.author = a ∧ r.rel_days = 0) ∧
    (∀ r ∈ computePaths seeds minComments df, 0 ≤ r.rel_days) ∧
    ((t0_rows seeds df).filter (fun r => decide (r.author = a))).length = 1 := by
  have hsa : s.author = a := by simpa using List.find?_some h
  have hsmem : s ∈ seed_df seeds df := List.mem_of_find?_eq_some h
  refine ⟨?_, computePaths_rel_days_nonneg seeds minComments df, ?_⟩
  · refine ⟨⟨s.author, s.subreddit, s.created_utc, 1, 0⟩, ?_, hsa, rfl⟩
    unfold computePaths
    refine List.mem_append_right _ ?_
    unfold t0_rows
    exact List.mem_map_of_mem _ hsmem
  · unfold t0_rows
    rw [List.filter_map]
    have hpred :
        ((fun r : Row => decide (r.author = a)) ∘
          (fun s : Event => Row.mk s.author s.subreddit s.created_utc 1 0)) =
        fun e : Event => decide (Event.author e = Event.author s) := by
      funext e
      simp [Function.comp, hsa]
    rw [hpred,
      filter_key_eq_singleton Event.author (seed_df seeds df)
        (nodup_map_key_dedupFirstBy Event.author _ []) s hsmem]
    rfl

/-- Witness for the amended C4 at the counterexample input. -/
theorem C4_amended_witness :
    (∃ r ∈ computePaths ["S"] 1 cdf4, r.author = "u" ∧ r.rel_days = 0) ∧
    (∀ r ∈ computePaths ["S"] 1 cdf4, 0 ≤ r.rel_days) ∧
    ((t0_rows ["S"] cdf4).filter (fun r => decide (r.author = "u"))).length = 1 :=
  C4_amended ["S"] 1 cdf4 "u" ⟨"u", "S", 200000⟩ (by decide)

/-! ### C5: behaviour when no seed-qualifying author remains -/

/-- A valid one-event input whose only event is outside the seed set. -/
def linesNoSeed : List JLine :=
  [JLine.obj ⟨some "u", some "X", some (JVal.jint 5)⟩]

/-- Counterexample to C5 as stated: with seed set S and a single valid event
outside S, the run raises SystemExit (lines 85-86) instead of completing with
an empty well-formed output. -/
theorem C5_counterexample :
    runComputePaths ["S"] 1 linesNoSeed = .error "Kein Seed-Poster gefunden." ∧
    runComputePaths ["S"] 1 linesNoSeed ≠ .ok [] := by
  decide

/-- C5 amended: if, after dropping malformed records, zero seed-qualifying
authors remain, the run terminates via SystemExit with the message
"Kein Seed-Poster gefunden." (a non-zero exit status), rather than completing
with an empty output. -/
theorem C5_amended (seeds : List String) (minComments : Int) (lines : List JLine)
    (df : List Event) (hseeds : seeds ≠ []) (hread : readRecords lines = .ok df)
    (hempty : seed_df seeds df = []) :
    runComputePaths seeds minComments lines = .error "Kein Seed-Poster gefunden." := by
  have h1 : runComputePaths seeds minComments lines =
      (if (seed_df seeds df).isEmpty then Except.error "Kein Seed-Poster gefunden."
       else Except.ok (computePaths seeds minComments df)) := by
    unfold runComputePaths
    rw [if_neg (by simpa using hseeds), hread]
  rw [h1, hempty]
  rfl

/-- Witness for the amended C5 at the counterexample input. -/
theorem C5_amended_witness :
    runComputePaths ["S"] 2 linesNoSeed = .error "Kein Seed-Poster gefunden." :=
  C5_amended ["S"] 2 linesNoSeed [⟨"u", "X", 5⟩] (by decide) (by decide) (by decide)

/-! ### C8: fatal configuration errors -/

/-- C8: an empty seed set makes the path-reconstruction run exit with a
non-zero status before reading any event (the error is the same for every
input line list, including lists that could not even be read), and a missing
required column makes the transition-graph stage exit with a descriptive
message. -/
theorem C8_config_errors :
    (∀ (minComments : Int) (lines : List JLine),
      runComputePaths [] minComments lines = .error "Seed-Subreddit-Liste ist leer!") ∧
    (∀ input : Csv, (∃ c ∈ reqCols, c ∉ input.columns) →
      ∃ msg, buildTransitionGraph input = .error msg) := by
  constructor
  · intro minComments lines
    rfl
  · intro input hmiss
    unfold buildTransitionGraph
    rw [if_neg]
    · exact ⟨_, rfl⟩
    · intro hall
      obtain ⟨c, hc, hnot⟩ := hmiss
      have := List.all_eq_true.mp hall c hc
      exact hnot (by simpa using this)

/-- Witness for C8: a concrete run with an empty seed list, and a concrete
CSV whose columns lack subreddit, rel_days and comment_count. -/
theorem C8_config_errors_witness :
    runComputePaths [] 3 [JLine.malformed] = .error "Seed-Subreddit-Liste ist leer!" ∧
    ∃ msg, buildTransitionGraph ⟨["author"], []⟩ = .error msg :=
  ⟨C8_config_errors.1 3 [JLine.malformed],
   C8_config_errors.2 ⟨["author"], []⟩ (by decide)⟩

/-! ### C9: behaviour of the record-reading loop on malformed input -/

/-- A mixed input: an undecodable line, an object missing the subreddit field,
then a record whose created_utc is the non-numeric string "oops". -/
def linesBadTs : List JLine :=
  [JLine.malformed,
   JLine.obj ⟨some "a", none, some (JVal.jint 3)⟩,
   JLine.obj ⟨some "a", some "s", some (JVal.jstr "oops")⟩]

/-- C9 evaluated at its failing input: a malformed JSON line is skipped and a
record missing a required field is skipped, but a record whose created_utc
does not parse as an integer makes `int(obj["created_utc"])` (line 70) raise
an uncaught ValueError, aborting the whole read — contradicting the claim
that processing never aborts because of a single bad record. -/
theorem C9_timestamp_abort :
    readRecords [JLine.malformed] = .ok [] ∧
    readRecords [JLine.obj ⟨some "a", none, some (JVal.jint 3)⟩] = .ok [] ∧
    readRecords [JLine.obj ⟨some "a", some "s", some (JVal.jstr "oops")⟩] =
      .error "ValueError: invalid literal for int()" ∧
    readRecords linesBadTs = .error "ValueError: invalid literal for int()" := by
  decide

/-! ### C2: the sort key of the transition aggregator -/

/-- A one-author path table with two steps of equal rel_days whose
first-seen timestamps are in descending insertion order: A at 199500,
B at 199000, both one day-bucket away from T0. -/
def cexC2 : List Row :=
  [⟨"u", "A", 199500, 1, 0⟩, ⟨"u", "B", 199000, 1, 0⟩]

/-- Counterexample to C2 as stated: line 56 sorts by rel_days, not by the
underlying timestamp, so two steps with equal rel_days keep insertion order
even when their first-seen timestamps are in descending order — the sorted
frame is not ordered by first_ts_here ascending. -/
theorem C2_counterexample :
    (df_user_sorted cexC2).map Row.first_ts_here = [199500, 199000] ∧
    ¬ List.Sorted (fun r s : Row => r.first_ts_here ≤ s.first_ts_here)
      (df_user_sorted cexC2) := by
  constructor
  · decide
  · decide

theorem rowKey_of_not_le (u : String) (d : Int) :
    ∀ x y : Row, (decide (x.author = u) && decide (x.rel_days = d)) = true →
      ¬ rowLe x y → (decide (y.author = u) && decide (y.rel_days = d)) = false := by
  intro x y hx hnot
  simp only [Bool.and_eq_true, decide_eq_true_eq] at hx
  by_contra hy
  rw [Bool.not_eq_false] at hy
  simp only [Bool.and_eq_true, decide_eq_true_eq] at hy
  exact hnot (Or.inr ⟨hx.1.trans hy.1.symm, le_of_eq (hy.2.trans hx.2.symm)⟩)

theorem filter_orderedInsert_row (p : Row → Bool)
    (hkey : ∀ x y : Row, p x = true → ¬ rowLe x y → p y = false) :
    ∀ (x : Row) (l : List Row),
      (List.orderedInsert rowLe x l).filter p =
        if p x then x :: l.filter p else l.filter p := by
  intro x l
  induction l with
  | nil => simp [List.orderedInsert, List.filter_cons]
  | cons y l ih =>
    by_cases hle : rowLe x y
    · simp only [List.orderedInsert, if_pos hle]
      rw [List.filter_cons]
    · simp only [List.orderedInsert, if_neg hle]
      by_cases hpx : p x = true
      · have hpy := hkey x y hpx hle
        rw [List.filter_cons, hpy]
        simp only [Bool.false_eq_true, if_false]
        rw [ih, if_pos hpx, if_pos hpx, List.filter_cons, hpy]
        simp
      · have hpx2 : p x = false := by
          cases h : p x
          · rfl
          · exact absurd h hpx
        rw [List.filter_cons, ih, hpx2]
        simp only [Bool.false_eq_true, if_false]
        rw [List.filter_cons]

theorem filter_insertionSort_row (p : Row → Bool)
    (hkey : ∀ x y : Row, p x = true → ¬ rowLe x y → p y = false) :
    ∀ l : List Row, (List.insertionSort rowLe l).filter p = l.filter p := by
  intro l
  induction l with
  | nil => rfl
  | cons x l ih =>
    simp only [List.insertionSort]
    rw [filter_orderedInsert_row p hkey, ih, List.filter_cons]

/-- C2 amended: the transition aggregator sorts the path table by author
ascending and rel_days descending (the derived day count, not the underlying
first-seen timestamp), with a stable sort: the output is a permutation of the
input, is sorted under that key, and rows sharing an (author, rel_days) key
keep their original insertion order (their filtered subsequence is unchanged).
Steps with equal rel_days spanning a day boundary therefore stay in insertion
order even when their timestamps would order them differently. -/
theorem C2_amended (t : List Row) (u : String) (d : Int) :
    List.Perm (df_user_sorted t) t ∧
    List.Sorted rowLe (df_user_sorted t) ∧
    (df_user_sorted t).filter (fun r => decide (r.author = u) && decide (r.rel_days = d)) =
      t.filter (fun r => decide (r.author = u) && decide (r.rel_days = d)) :=
  ⟨List.perm_insertionSort _ _, List.sorted_insertionSort _ _,
   filter_insertionSort_row _ (rowKey_of_not_le u d) t⟩

/-! ### Closed forms of the per-author accumulator updates -/

theorem regNodeUsers_apply (a : String) :
    ∀ (subs : List String) (nu : String → Finset String) (c : String),
      regNodeUsers a subs nu c = if c ∈ subs then insert a (nu c) else nu c := by
  intro subs
  induction subs with
  | nil => intro nu c; simp [regNodeUsers]
  | cons s rest ih =>
    intro nu c
    have hstep : regNodeUsers a (s :: rest) nu =
        regNodeUsers a rest (fun c => if c = s then insert a (nu c) else nu c) := rfl
    rw [hstep, ih]
    by_cases hc : c = s
    · by_cases hcr : c ∈ rest
      · simp [hc, hcr, Finset.insert_idem]
      · simp [hc, hcr]
    · by_cases hcr : c ∈ rest
      · simp [hc, hcr]
      · simp [hc, hcr]

theorem regEdgeUsers_apply (a : String) :
    ∀ (ps : List (String × String)) (eu : String × String → Finset String)
      (e : String × String),
      regEdgeUsers a ps eu e = if e ∈ ps then insert a (eu e) else eu e := by
  intro ps
  induction ps with
  | nil => intro eu e; simp [regEdgeUsers]
  | cons p rest ih =>
    intro eu e
    have hstep : regEdgeUsers a (p :: rest) eu =
        regEdgeUsers a rest (fun e => if e = p then insert a (eu e) else eu e) := rfl
    rw [hstep, ih]
    by_cases he : e = p
    · by_cases her : e ∈ rest
      · simp [he, her, Finset.insert_idem]
      · simp [he, her]
    · by_cases her : e ∈ rest
      · simp [he, her]
      · simp [he, her]

theorem regEdgeTrans_apply :
    ∀ (ps : List (String × String)) (et : String × String → Nat) (e : String × String),
      regEdgeTrans ps et e = et e + ps.countP (fun q => decide (q = e)) := by
  intro ps
  induction ps with
  | nil => intro et e; simp [regEdgeTrans]
  | cons p rest ih =>
    intro et e
    have hstep : regEdgeTrans (p :: rest) et =
        regEdgeTrans rest (fun e => if e = p then et e + 1 else et e) := rfl
    rw [hstep, ih, List.countP_cons]
    by_cases he : e = p
    · subst he
      rw [if_pos rfl, if_pos (by simp)]
      omega
    · rw [if_neg he, if_neg (by simp [Ne.symm he])]
      omega

/-- The edge attributes written at lines 87-89: `weight_users` is the size of
the author set, `weight_transitions` the transition counter. -/
def weight_users (st : AggState) (e : String × String) : Nat :=
  (st.edge_users e).card

/-- The node attribute written at line 83. -/
def users_total (st : AggState) (c : String) : Nat :=
  (st.node_users c).card

/-! ### C6: weight_users ≤ weight_transitions -/

theorem card_le_trans_foldl :
    ∀ (groups : List (String × List String)) (st : AggState),
      (∀ e, (st.edge_users e).card ≤ st.edge_trans e) →
      ∀ e, ((groups.foldl processAuthor st).edge_users e).card ≤
        (groups.foldl processAuthor st).edge_trans e := by
  intro groups
  induction groups with
  | nil => intro st h e; exact h e
  | cons g rest ih =>
    intro st h e
    rw [List.foldl_cons]
    apply ih
    intro f
    show (regEdgeUsers g.1 (pairsOf g.2) st.edge_users f).card ≤
      regEdgeTrans (pairsOf g.2) st.edge_trans f
    rw [regEdgeUsers_apply, regEdgeTrans_apply]
    by_cases hf : f ∈ pairsOf g.2
    · rw [if_pos hf]
      have h1 : (insert g.1 (st.edge_users f)).card ≤ (st.edge_users f).card + 1 :=
        Finset.card_insert_le _ _
      have h2 : 0 < (pairsOf g.2).countP (fun q => decide (q = f)) :=
        List.countP_pos_iff.mpr ⟨f, hf, by simp⟩
      have h3 := h f
      omega
    · rw [if_neg hf]
      have h3 := h f
      omega

/-- C6: on every edge of the aggregated transition graph, the number of
distinct authors never exceeds the total number of recorded transitions:
weight_users ≤ weight_transitions. -/
theorem C6_edge_weight_consistency (t : List Row) (e : String × String) :
    weight_users (buildAgg t) e ≤ (buildAgg t).edge_trans e := by
  unfold weight_users buildAgg buildState
  apply card_le_trans_foldl
  intro f
  simp [initState]

/-! ### C7: aggregation is permutation-invariant over authors -/

theorem bumpFirstEntry_comm (s1 s2 : List String) (fe : String → Nat) :
    bumpFirstEntry s2 (bumpFirstEntry s1 fe) = bumpFirstEntry s1 (bumpFirstEntry s2 fe) := by
  cases s1 with
  | nil => rfl
  | cons h1 r1 =>
    cases s2 with
    | nil => rfl
    | cons h2 r2 =>
      funext c
      simp only [bumpFirstEntry]
      by_cases hc1 : c = h1 <;> by_cases hc2 : c = h2
      · have h12 : h1 = h2 := hc1.symm.trans hc2
        simp [hc1, h12]
      · have h12 : h1 ≠ h2 := fun hc => hc2 (hc1.trans hc)
        simp [hc1, hc2, h12, Ne.symm h12]
      · have h12 : h2 ≠ h1 := fun hc => hc1 (hc2.trans hc)
        simp [hc1, hc2, h12, Ne.symm h12]
      · simp [hc1, hc2]

theorem processAuthor_comm (st : AggState) (g1 g2 : String × List String) :
    processAuthor (processAuthor st g1) g2 = processAuthor (processAuthor st g2) g1 := by
  apply AggState.ext
  · funext e
    show regEdgeUsers g2.1 (pairsOf g2.2) (regEdgeUsers g1.1 (pairsOf g1.2) st.edge_users) e =
      regEdgeUsers g1.1 (pairsOf g1.2) (regEdgeUsers g2.1 (pairsOf g2.2) st.edge_users) e
    rw [regEdgeUsers_apply, regEdgeUsers_apply, regEdgeUsers_apply, regEdgeUsers_apply]
    by_cases h1 : e ∈ pairsOf g1.2
    · by_cases h2 : e ∈ pairsOf g2.2
      · simp [h1, h2, Finset.Insert.comm]
      · simp [h1, h2]
    · by_cases h2 : e ∈ pairsOf g2.2
      · simp [h1, h2]
      · simp [h1, h2]
  · funext e
    show regEdgeTrans (pairsOf g2.2) (regEdgeTrans (pairsOf g1.2) st.edge_trans) e =
      regEdgeTrans (pairsOf g1.2) (regEdgeTrans (pairsOf g2.2) st.edge_trans) e
    rw [regEdgeTrans_apply, regEdgeTrans_apply, regEdgeTrans_apply, regEdgeTrans_apply]
    omega
  · funext c
    show regNodeUsers g2.1 g2.2 (regNodeUsers g1.1 g1.2 st.node_users) c =
      regNodeUsers g1.1 g1.2 (regNodeUsers g2.1 g2.2 st.node_users) c
    rw [regNodeUsers_apply, regNodeUsers_apply, regNodeUsers_apply, regNodeUsers_apply]
    by_cases h1 : c ∈ g1.2
    · by_cases h2 : c ∈ g2.2
      · simp [h1, h2, Finset.Insert.comm]
      · simp [h1, h2]
    · by_cases h2 : c ∈ g2.2
      · simp [h1, h2]
      · simp [h1, h2]
  · show bumpFirstEntry g2.2 (bumpFirstEntry g1.2 st.first_entries) =
      bumpFirstEntry g1.2 (bumpFirstEntry g2.2 st.first_entries)
    exact bumpFirstEntry_comm g1.2 g2.2 st.first_entries

theorem foldl_processAuthor_perm {g1 g2 : List (String × List String)}
    (h : List.Perm g1 g2) :
    ∀ st, g1.foldl processAuthor st = g2.foldl processAuthor st := by
  induction h with
  | nil => intro st; rfl
  | cons x _ ih =>
    intro st
    simp only [List.foldl_cons]
    exact ih _
  | swap x y l =>
    intro st
    simp only [List.foldl_cons]
    rw [processAuthor_comm]
  | trans _ _ ih1 ih2 =>
    intro st
    rw [ih1, ih2]

/-- C7: processing the per-author groups of a path table in any order yields
the same node users_total and first_entries and the same edge weight_users
and weight_transitions — each author's contribution commutes with every
other's. -/
theorem C7_perm_invariance (t : List Row) (gs : List (String × List String))
    (h : List.Perm gs (groupbyAuthor (df_user_sorted t))) :
    (∀ c, users_total (buildState gs) c = users_total (buildAgg t) c) ∧
    (∀ c, (buildState gs).first_entries c = (buildAgg t).first_entries c) ∧
    (∀ e, weight_users (buildState gs) e = weight_users (buildAgg t) e) ∧
    (∀ e, (buildState gs).edge_trans e = (buildAgg t).edge_trans e) := by
  have heq : buildState gs = buildAgg t := foldl_processAuthor_perm h initState
  rw [heq]
  exact ⟨fun _ => rfl, fun _ => rfl, fun _ => rfl, fun _ => rfl⟩

/-- A two-author path table for the C7 witness. -/
def t7 : List Row :=
  [⟨"a", "X", 10, 1, 3⟩, ⟨"a", "S", 20, 1, 0⟩, ⟨"b", "S", 30, 1, 0⟩]

/-- The author groups of `t7` processed in the reverse order. -/
def gs7 : List (String × List String) :=
  [("b", ["S"]), ("a", ["X", "S"])]

/-- Witness for C7: the reversed group order gives the same attributes. -/
theorem C7_perm_invariance_witness :
    (∀ c, users_total (buildState gs7) c = users_total (buildAgg t7) c) ∧
    (∀ c, (buildState gs7).first_entries c = (buildAgg t7).first_entries c) ∧
    (∀ e, weight_users (buildState gs7) e = weight_users (buildAgg t7) e) ∧
    (∀ e, (buildState gs7).edge_trans e = (buildAgg t7).edge_trans e) :=
  C7_perm_invariance t7 gs7 (by decide)

/-! ### C10: total of first_entries equals the number of distinct authors -/

theorem mem_dedupFirstBy_id {κ : Type} [DecidableEq κ] :
    ∀ (l : List κ) (seen : List κ) (x : κ),
      x ∈ dedupFirstBy id seen l ↔ x ∈ l ∧ x ∉ seen := by
  intro l
  induction l with
  | nil => intro seen x; simp [dedupFirstBy]
  | cons y rest ih =>
    intro seen x
    by_cases hy : y ∈ seen
    · have hstep : dedupFirstBy id seen (y :: rest) = dedupFirstBy id seen rest := by
        simp [dedupFirstBy, hy]
      rw [hstep, ih]
      constructor
      · rintro ⟨h1, h2⟩
        exact ⟨List.mem_cons_of_mem _ h1, h2⟩
      · rintro ⟨h1, h2⟩
        rcases List.mem_cons.mp h1 with rfl | h1
        · exact absurd hy h2
        · exact ⟨h1, h2⟩
    · have hstep : dedupFirstBy id seen (y :: rest) =
          y :: dedupFirstBy id (y :: seen) rest := by
        simp [dedupFirstBy, hy]
      rw [hstep]
      constructor
      · intro hx
        rcases List.mem_cons.mp hx with rfl | hx
        · exact ⟨List.mem_cons_self _ _, hy⟩
        · obtain ⟨h1, h2⟩ := (ih (y :: seen) x).mp hx
          exact ⟨List.mem_cons_of_mem _ h1,
            fun hc => h2 (List.mem_cons_of_mem _ hc)⟩
      · rintro ⟨h1, h2⟩
        rcases List.mem_cons.mp h1 with rfl | h1
        · exact List.mem_cons_self _ _
        · by_cases hxy : x = y
          · exact hxy ▸ List.mem_cons_self _ _
          · refine List.mem_cons_of_mem _ ((ih (y :: seen) x).mpr ⟨h1, ?_⟩)
            intro hc
            rcases List.mem_cons.mp hc with hc | hc
            · exact hxy hc
            · exact h2 hc

theorem nodup_dedupFirstBy_id {κ : Type} [DecidableEq κ] (l seen : List κ) :
    (dedupFirstBy id seen l).Nodup := by
  have h := nodup_map_key_dedupFirstBy id l seen
  rwa [List.map_id] at h

theorem length_dedupFirstBy_id {κ : Type} [DecidableEq κ] (l : List κ) :
    (dedupFirstBy id [] l).length = l.toFinset.card := by
  have hnd := nodup_dedupFirstBy_id l []
  have hfs : (dedupFirstBy id [] l).toFinset = l.toFinset := by
    apply Finset.ext
    intro x
    simp only [List.mem_toFinset]
    rw [mem_dedupFirstBy_id]
    simp
  rw [← hfs, List.toFinset_card_of_nodup hnd]

theorem sum_first_entries_foldl (S : Finset String) :
    ∀ (groups : List (String × List String)) (st : AggState),
      (∀ g ∈ groups, ∃ h rest, g.2 = h :: rest ∧ h ∈ S) →
      ∑ c ∈ S, (groups.foldl processAuthor st).first_entries c =
        (∑ c ∈ S, st.first_entries c) + groups.length := by
  intro groups
  induction groups with
  | nil => intro st _; simp
  | cons g tail ih =>
    intro st hg
    rw [List.foldl_cons, ih _ (fun g2 hg2 => hg g2 (List.mem_cons_of_mem _ hg2))]
    obtain ⟨h, rest, hsubs, hS⟩ := hg g (List.mem_cons_self _ _)
    have hfe : ∀ c, (processAuthor st g).first_entries c =
        st.first_entries c + (if c = h then 1 else 0) := by
      intro c
      show bumpFirstEntry g.2 st.first_entries c = _
      rw [hsubs]
      by_cases hc : c = h
      · simp [bumpFirstEntry, hc]
      · simp [bumpFirstEntry, hc]
    have hsum : ∑ c ∈ S, (processAuthor st g).first_entries c =
        (∑ c ∈ S, st.first_entries c) + 1 := by
      simp only [hfe]
      rw [Finset.sum_add_distrib, Finset.sum_ite_eq' S h (fun _ => 1), if_pos hS]
    rw [hsum, List.length_cons]
    omega

theorem groupbyAuthor_heads (t : List Row) :
    ∀ g ∈ groupbyAuthor t,
      ∃ h rest, g.2 = h :: rest ∧ h ∈ t.map Row.subreddit := by
  intro g hg
  unfold groupbyAuthor at hg
  rcases List.mem_map.mp hg with ⟨a, ha, hga⟩
  subst hga
  have hmem : a ∈ t.map Row.author := by
    unfold authorsInOrder at ha
    exact ((mem_dedupFirstBy_id _ [] a).mp ha).1
  rcases List.mem_map.mp hmem with ⟨r, hr, hra⟩
  have hrf : r ∈ t.filter (fun x => decide (x.author = a)) :=
    List.mem_filter.mpr ⟨hr, by simp [hra]⟩
  rcases hfil : t.filter (fun x => decide (x.author = a)) with _ | ⟨r0, rs⟩
  · rw [hfil] at hrf
    simp at hrf
  · refine ⟨r0.subreddit, rs.map Row.subreddit, by rw [hfil]; rfl, ?_⟩
    have hr0 : r0 ∈ t := by
      refine List.mem_of_mem_filter (p := fun x => decide (x.author = a)) ?_
      rw [hfil]
      exact List.mem_cons_self _ _
    exact List.mem_map_of_mem _ hr0

/-- C10: the first_entries attributes summed over all communities of the
table equal the number of distinct authors: every author group of the sorted
table is non-empty and bumps first_entries exactly once, at the first
community of the author's sorted path. -/
theorem C10_first_entries_total (t : List Row) :
    ∑ c ∈ (t.map Row.subreddit).toFinset, (buildAgg t).first_entries c =
      (t.map Row.author).toFinset.card := by
  have hperm : List.Perm ((df_user_sorted t).map Row.subreddit) (t.map Row.subreddit) :=
    (List.perm_insertionSort rowLe t).map _
  have hpermA : List.Perm ((df_user_sorted t).map Row.author) (t.map Row.author) :=
    (List.perm_insertionSort rowLe t).map _
  unfold buildAgg buildState
  rw [sum_first_entries_foldl _ _ initState ?hheads]
  case hheads =>
    intro g hg
    obtain ⟨h, rest, h1, h2⟩ := groupbyAuthor_heads (df_user_sorted t) g hg
    exact ⟨h, rest, h1, List.mem_toFinset.mpr (hperm.mem_iff.mp h2)⟩
  have hzero : ∑ c ∈ (t.map Row.subreddit).toFinset, initState.first_entries c = 0 := by
    simp [initState]
  rw [hzero]
  have hlen : (groupbyAuthor (df_user_sorted t)).length =
      (t.map Row.author).toFinset.card := by
    unfold groupbyAuthor authorsInOrder
    rw [List.length_map, length_dedupFirstBy_id,
      List.toFinset_eq_of_perm _ _ hpermA]
  rw [hlen]
  omega

end RedditDrift
